import Mathlib

/-!
# Parallel array sum: pthreads, OpenMP and TBB demonstration programs

A shallow embedding of the three programs

* `parallel_sum_array_pthreads.c`  (explicit threads, mutex-protected `global_sum`),
* `parallel_sum_array_openmp.c`    (`omp parallel for reduction(+:global_sum)`),
* `parallel_sum_of_array_intelltbb.c` (`tbb::parallel_reduce`),

followed by theorems about them.

Modelling conventions.

* The C macros `N` and `NUM_THREADS` are parameters of the definitions; the shipped
  programs are the instances `N = 16`, `NUM_THREADS = 4`.
* An `int` array is a `List Int`; a read `arr[i]` outside the list is undefined behaviour and
  makes the computation return `none`.  A division by zero also returns `none`.
* Index arithmetic (`thread_id`, `chunk_size`, `start`, `end`, `i`) is carried out in `Nat`:
  every such value is non-negative and bounded by `N` (shown below for every worker).
* Addition on array elements is `int_add`, parameterised by `IntSem`: either exact integer
  addition (the reading "no overflow within the tested domain") or 32-bit two's-complement
  wrap-around.  Theorems are stated for every `IntSem`.
* A `for` loop carries explicit fuel; every caller passes the trip count `end - start`, and the
  theorems show that a result is produced.
* A worker's loop only reads `arr` (never written after initialisation) and writes its own
  locals, so a run of the pthreads program is determined by the order in which the workers
  execute the critical section `global_sum += local_sum`.  A schedule is therefore the list of
  thread ids in that order, and each worker is run as one step of the schedule.
* `State.reads` is a ghost field recording the indices `i` of every `arr[i]` read by a worker.
* A run of the OpenMP program under `omp parallel for reduction(+:global_sum)` is given by a
  schedule (for each thread of the team, the iterations it executes, in the order it executes
  them) and a combination (the way the original `global_sum` and the threads' private copies
  are merged with `+` at the end of the region).  Each private copy starts at 0.
-/

namespace ParallelSum

/-! ## C `int` addition -/

/-- Two readings of C `int` addition. -/
inductive IntSem where
  | exact
  | wrap32
  deriving DecidableEq, Repr

/-- Reduction of an integer to the signed 32-bit range `[-2^31, 2^31)` modulo `2^32`. -/
def wrap_int32 (x : Int) : Int :=
  (x + 2147483648) % 4294967296 - 2147483648

/-- The value stored in an `int` for the mathematical result `x`. -/
def IntSem.norm : IntSem → Int → Int
  | .exact, x => x
  | .wrap32, x => wrap_int32 x

/-- The C expression `a + b` on `int`. -/
def int_add (sem : IntSem) (a b : Int) : Int :=
  sem.norm (a + b)

/-! ## The accumulation loop of the pthreads workers and of the TBB body -/

/-- The loop `for (; i < end; i++) local_sum += arr[i];` run from index `i` with accumulator
`local_sum`.  Returns the final accumulator together with the list of indices read (appended
to `reads`); `none` on an out-of-bounds read or when the fuel runs out. -/
def sum_loop (sem : IntSem) (arr : List Int) (end_ : Nat) :
    Nat → Nat → Int → List Nat → Option (Int × List Nat)
  | 0, i, local_sum, reads =>
    if i < end_ then none else some (local_sum, reads)
  | fuel + 1, i, local_sum, reads =>
    if i < end_ then
      match arr[i]? with
      | none => none
      | some x => sum_loop sem arr end_ fuel (i + 1) (int_add sem local_sum x) (reads ++ [i])
    else some (local_sum, reads)

/-- The loop `for (int i = 0; i < N; i++) arr[i] = i + 1;` run from index `i`;
`none` on an out-of-bounds write or when the fuel runs out. -/
def init_loop (N : Nat) : Nat → Nat → List Int → Option (List Int)
  | 0, i, arr => if i < N then none else some arr
  | fuel + 1, i, arr =>
    if i < N then
      if i < arr.length then init_loop N fuel (i + 1) (arr.set i ((i : Int) + 1)) else none
    else some arr

/-- The array after the initialisation loop, starting from the `N` zero-initialised cells. -/
def init_arr (N : Nat) : Option (List Int) :=
  init_loop N N 0 (List.replicate N 0)

/-- The array `1, 2, .., 16` written by the initialisation loops of the shipped programs. -/
def arr16 : List Int :=
  [1, 2, 3, 4, 5, 6, 7, 8, 9, 10, 11, 12, 13, 14, 15, 16]

/-- The straightforward sequential left-to-right sum of a sequence, starting from 0. -/
def seq_sum (sem : IntSem) (arr : List Int) : Int :=
  arr.foldl (int_add sem) 0

/-! ## `parallel_sum_array_pthreads.c` -/

namespace Pthreads

/-- Globals of the program (`arr`, `global_sum`) and the ghost list of read indices. -/
structure State where
  arr : List Int
  global_sum : Int
  reads : List Nat
  deriving DecidableEq, Repr

/-- `int chunk_size = N / NUM_THREADS;` -/
def chunk_size (N NUM_THREADS : Nat) : Nat :=
  N / NUM_THREADS

/-- `int start = thread_id * chunk_size;` -/
def start (N NUM_THREADS thread_id : Nat) : Nat :=
  thread_id * chunk_size N NUM_THREADS

/-- `int end = start + chunk_size;` -/
def end_ (N NUM_THREADS thread_id : Nat) : Nat :=
  start N NUM_THREADS thread_id + chunk_size N NUM_THREADS

/-- Specification helper: the elements of `arr` with indices in `[t * cs, t * cs + cs)`. -/
def chunk (cs : Nat) (arr : List Int) (t : Nat) : List Int :=
  (arr.drop (t * cs)).take cs

/-- The local part of `partial_sum`: the worker's `local_sum` and the indices it read. -/
def local_sum (sem : IntSem) (N NUM_THREADS : Nat) (arr : List Int) (thread_id : Nat) :
    Option (Int × List Nat) :=
  if NUM_THREADS = 0 then none
  else
    sum_loop sem arr (end_ N NUM_THREADS thread_id)
      (end_ N NUM_THREADS thread_id - start N NUM_THREADS thread_id)
      (start N NUM_THREADS thread_id) 0 []

/-- The thread function `partial_sum` with argument `thread_id`, as one step on the globals:
compute `local_sum` over `[start, end)`, then `global_sum += local_sum` under the lock. -/
def partial_sum (sem : IntSem) (N NUM_THREADS : Nat) (thread_id : Nat) (s : State) :
    Option State :=
  match local_sum sem N NUM_THREADS s.arr thread_id with
  | none => none
  | some (l, r) =>
    some { s with global_sum := int_add sem s.global_sum l, reads := s.reads ++ r }

/-- Run the workers whose critical sections are executed in the given order. -/
def run_workers (sem : IntSem) (N NUM_THREADS : Nat) : List Nat → State → Option State
  | [], s => some s
  | thread_id :: rest, s =>
    match partial_sum sem N NUM_THREADS thread_id s with
    | none => none
    | some s' => run_workers sem N NUM_THREADS rest s'

/-- The thread ids created by `main`: `thread_ids[i] = i` for `i = 0 .. NUM_THREADS - 1`. -/
def thread_ids (NUM_THREADS : Nat) : List Nat :=
  List.range NUM_THREADS

/-- The reduction on a given array under a given schedule: `global_sum` starts at 0, the
workers run, and the final state is returned. -/
def reduce_state (sem : IntSem) (N NUM_THREADS : Nat) (arr : List Int) (order : List Nat) :
    Option State :=
  run_workers sem N NUM_THREADS order { arr := arr, global_sum := 0, reads := [] }

/-- The value of `global_sum` after all workers of the schedule have finished. -/
def reduce_sched (sem : IntSem) (N NUM_THREADS : Nat) (arr : List Int) (order : List Nat) :
    Option Int :=
  (reduce_state sem N NUM_THREADS arr order).map State.global_sum

/-- The reduction with the workers merging in creation order `0, 1, .., NUM_THREADS - 1`. -/
def reduce (sem : IntSem) (N NUM_THREADS : Nat) (arr : List Int) : Option Int :=
  reduce_sched sem N NUM_THREADS arr (thread_ids NUM_THREADS)

/-- The program `main` under a schedule: initialise `arr`, run the workers, and return the
value printed as `Final Global Sum`. -/
def main_sched (sem : IntSem) (N NUM_THREADS : Nat) (order : List Nat) : Option Int :=
  match init_arr N with
  | none => none
  | some arr => reduce_sched sem N NUM_THREADS arr order

/-- The program `main` with the workers merging in creation order. -/
def main (sem : IntSem) (N NUM_THREADS : Nat) : Option Int :=
  main_sched sem N NUM_THREADS (thread_ids NUM_THREADS)

end Pthreads

/-! ## `parallel_sum_array_openmp.c` -/

namespace OpenMP

/-- The loop body `global_sum += arr[i];` of iteration `i`, executed by a thread on its
private copy of `global_sum`; `none` on an out-of-bounds read. -/
def loop_body (sem : IntSem) (arr : List Int) (i : Nat) (global_sum : Int) : Option Int :=
  match arr[i]? with
  | none => none
  | some x => some (int_add sem global_sum x)

/-- One thread of the team: it executes the iterations assigned to it, in the given order,
on its private copy of `global_sum`, and ends with the final value of that copy. -/
def run_thread (sem : IntSem) (arr : List Int) : List Nat → Int → Option Int
  | [], global_sum => some global_sum
  | i :: rest, global_sum =>
    match loop_body sem arr i global_sum with
    | none => none
    | some g => run_thread sem arr rest g

/-- The parallel region: thread `t` of the team executes the iterations `sched[t]`; its
private copy is initialised to 0, the initialiser of the `+` reduction.  The result lists the
final private copies of the threads. -/
def run_team (sem : IntSem) (arr : List Int) : List (List Nat) → Option (List Int)
  | [] => some []
  | iterations :: rest =>
    match run_thread sem arr iterations 0 with
    | none => none
    | some g =>
      match run_team sem arr rest with
      | none => none
      | some gs => some (g :: gs)

/-- The way the values are combined at the end of the region: the operands are the original
value of `global_sum` and the private copy of each thread, merged pairwise with `+` in an
unspecified order and grouping. -/
inductive Combine where
  | orig
  | copy (t : Nat)
  | op (l r : Combine)
  deriving DecidableEq, Repr

/-- The operands of a combination, left to right: `none` is the original `global_sum`,
`some t` the private copy of thread `t`. -/
def Combine.operands : Combine → List (Option Nat)
  | .orig => [none]
  | .copy t => [some t]
  | .op l r => l.operands ++ r.operands

/-- The value of a combination, given the original value and the private copies; `none` when
it refers to a thread that is not in the team. -/
def Combine.eval (sem : IntSem) (original : Int) (copies : List Int) : Combine → Option Int
  | .orig => some original
  | .copy t => copies[t]?
  | .op l r =>
    match l.eval sem original copies with
    | none => none
    | some x =>
      match r.eval sem original copies with
      | none => none
      | some y => some (int_add sem x y)

/-- The loop `for (int i = 0; i < N; i++) global_sum += arr[i];` under
`omp parallel for reduction(+:global_sum)`, with `global_sum = 0` before the region: the team
runs the schedule, then `global_sum` becomes the combination of its original value 0 with
the private copies. -/
def reduce (sem : IntSem) (arr : List Int) (sched : List (List Nat)) (c : Combine) :
    Option Int :=
  match run_team sem arr sched with
  | none => none
  | some copies => c.eval sem 0 copies

/-- The program `main`: initialise `arr`, run the parallel loop, return the printed value. -/
def main (sem : IntSem) (N : Nat) (sched : List (List Nat)) (c : Combine) : Option Int :=
  match init_arr N with
  | none => none
  | some arr => reduce sem arr sched c

/-- The program `main` run by a team of one thread, which executes the iterations
`0, 1, .., N - 1` in order; its private copy is then combined with the original value. -/
def main_one_thread (sem : IntSem) (N : Nat) : Option Int :=
  main sem N [List.range N] (Combine.op Combine.orig (Combine.copy 0))

end OpenMP

/-! ## `parallel_sum_of_array_intelltbb.c` -/

namespace TBB

/-- One way in which the library routine `tbb::parallel_reduce` processes a `blocked_range`,
following its documented behaviour (the body and join lambdas are the program's own):
* `leaf`: the body is applied to the whole range;
* `cont mid l r`: the range is split at `mid`, and the same body processes the left part and
  then the right part, handing the accumulated value on;
* `fork mid l r`: the range is split at `mid`, the right part is processed by a fresh body
  starting from the identity, and the two values are joined. -/
inductive Plan where
  | leaf
  | cont (mid : Nat) (l r : Plan)
  | fork (mid : Nat) (l r : Plan)
  deriving DecidableEq, Repr

/-- Every split point of the plan lies inside the range it splits. -/
def Plan.valid : Plan → Nat → Nat → Bool
  | .leaf, _, _ => true
  | .cont mid l r, b, e => decide (b ≤ mid) && decide (mid ≤ e) && l.valid b mid && r.valid mid e
  | .fork mid l r, b, e => decide (b ≤ mid) && decide (mid ≤ e) && l.valid b mid && r.valid mid e

/-- The body lambda: `for (int i = r.begin(); i < r.end(); i++) local_sum += arr[i];`
then `return local_sum;`. -/
def body (sem : IntSem) (arr : List Int) (r_begin r_end : Nat) (local_sum : Int) : Option Int :=
  (sum_loop sem arr r_end (r_end - r_begin) r_begin local_sum []).map Prod.fst

/-- The join lambda: `return x + y;`. -/
def join (sem : IntSem) (x y : Int) : Int :=
  int_add sem x y

/-- The value of `parallel_reduce` over `[b, e)` following a plan, the body being handed
`local_sum`.  `none` when the plan splits outside the range or a read is out of bounds. -/
def parallel_reduce (sem : IntSem) (arr : List Int) (identity : Int) :
    Plan → Nat → Nat → Int → Option Int
  | .leaf, b, e, local_sum => body sem arr b e local_sum
  | .cont mid l r, b, e, local_sum =>
    if b ≤ mid ∧ mid ≤ e then
      match parallel_reduce sem arr identity l b mid local_sum with
      | none => none
      | some x => parallel_reduce sem arr identity r mid e x
    else none
  | .fork mid l r, b, e, local_sum =>
    if b ≤ mid ∧ mid ≤ e then
      match parallel_reduce sem arr identity l b mid local_sum with
      | none => none
      | some x =>
        match parallel_reduce sem arr identity r mid e identity with
        | none => none
        | some y => some (join sem x y)
    else none

/-- The call in `main`: `parallel_reduce(blocked_range(0, N), 0, body, join)`. -/
def reduce (sem : IntSem) (N : Nat) (arr : List Int) (p : Plan) : Option Int :=
  parallel_reduce sem arr 0 p 0 N 0

/-- The program `main`: initialise `arr`, reduce, return the printed value. -/
def main (sem : IntSem) (N : Nat) (p : Plan) : Option Int :=
  match init_arr N with
  | none => none
  | some arr => reduce sem N arr p

end TBB


/-! ## Arithmetic of `IntSem.norm` -/

theorem norm_norm (sem : IntSem) (a : Int) : sem.norm (sem.norm a) = sem.norm a := by
  cases sem
  · rfl
  · simp only [IntSem.norm, wrap_int32]; omega

theorem norm_add_left (sem : IntSem) (a b : Int) :
    sem.norm (sem.norm a + b) = sem.norm (a + b) := by
  cases sem
  · rfl
  · simp only [IntSem.norm, wrap_int32]; omega

theorem norm_add_right (sem : IntSem) (a b : Int) :
    sem.norm (a + sem.norm b) = sem.norm (a + b) := by
  cases sem
  · rfl
  · simp only [IntSem.norm, wrap_int32]; omega

theorem norm_zero (sem : IntSem) : sem.norm 0 = 0 := by
  cases sem <;> rfl

theorem foldl_int_add (sem : IntSem) (xs : List Int) :
    ∀ acc : Int, sem.norm acc = acc → xs.foldl (int_add sem) acc = sem.norm (acc + xs.sum) := by
  induction xs with
  | nil => intro acc h; simp [h]
  | cons x xs ih =>
    intro acc _
    rw [List.foldl_cons, ih (int_add sem acc x) (norm_norm sem _), int_add, norm_add_left,
      List.sum_cons, Int.add_assoc]

theorem seq_sum_eq (sem : IntSem) (arr : List Int) : seq_sum sem arr = sem.norm arr.sum := by
  rw [seq_sum, foldl_int_add sem arr 0 (norm_zero sem), Int.zero_add]

theorem norm_sum_map_norm {α : Type} (sem : IntSem) (f : α → Int) (ts : List α) :
    sem.norm ((ts.map (fun t => sem.norm (f t))).sum) = sem.norm ((ts.map f).sum) := by
  induction ts with
  | nil => rfl
  | cons t ts ih =>
    simp only [List.map_cons, List.sum_cons]
    rw [norm_add_left, ← norm_add_right, ih, norm_add_right]

/-! ## The accumulation loop -/

theorem sum_loop_eq (sem : IntSem) (arr : List Int) (end_ : Nat) (hend : end_ ≤ arr.length) :
    ∀ (fuel i : Nat) (acc : Int) (reads : List Nat), end_ - i ≤ fuel →
      sum_loop sem arr end_ fuel i acc reads =
        some (((arr.drop i).take (end_ - i)).foldl (int_add sem) acc,
          reads ++ List.range' i (end_ - i)) := by
  intro fuel
  induction fuel with
  | zero =>
    intro i acc reads h
    have h0 : end_ - i = 0 := by omega
    have hlt : ¬ i < end_ := by omega
    simp [sum_loop, hlt, h0]
  | succ fuel ih =>
    intro i acc reads h
    by_cases hlt : i < end_
    · have hi : i < arr.length := by omega
      have hk : end_ - i = (end_ - (i + 1)) + 1 := by omega
      rw [sum_loop, if_pos hlt, List.getElem?_eq_getElem hi]
      simp only []
      rw [ih (i + 1) _ _ (by omega), hk, List.drop_eq_getElem_cons hi, List.take_succ_cons,
        List.foldl_cons, List.range'_succ, List.append_assoc]
      rfl
    · have h0 : end_ - i = 0 := by omega
      simp [sum_loop, hlt, h0]


/-! ## Chunks of the pthreads scheme -/

namespace Pthreads

theorem end_le (N W t : Nat) (ht : t < W) : end_ N W t ≤ N := by
  unfold end_ start chunk_size
  calc t * (N / W) + N / W = (t + 1) * (N / W) := by ring
    _ ≤ W * (N / W) := Nat.mul_le_mul_right _ ht
    _ ≤ N := Nat.mul_div_le N W

theorem local_sum_eq (sem : IntSem) (N W : Nat) (arr : List Int) (t : Nat)
    (hW : 1 ≤ W) (hlen : arr.length = N) (ht : t < W) :
    local_sum sem N W arr t =
      some (sem.norm (chunk (N / W) arr t).sum, List.range' (t * (N / W)) (N / W)) := by
  have hend : end_ N W t ≤ arr.length := hlen ▸ end_le N W t ht
  have hW0 : W ≠ 0 := by omega
  rw [local_sum, if_neg hW0, sum_loop_eq sem arr _ hend _ _ _ _ (Nat.le_refl _),
    foldl_int_add sem _ 0 (norm_zero sem)]
  simp [end_, start, chunk_size, chunk]

theorem run_workers_eq (sem : IntSem) (N W : Nat) (hW : 1 ≤ W) :
    ∀ (order : List Nat) (s : State), s.arr.length = N → (∀ t ∈ order, t < W) →
      run_workers sem N W order s =
        some { arr := s.arr
               global_sum := (order.map (fun t => sem.norm (chunk (N / W) s.arr t).sum)).foldl
                 (int_add sem) s.global_sum
               reads := s.reads ++ order.flatMap (fun t => List.range' (t * (N / W)) (N / W)) } := by
  intro order
  induction order with
  | nil => intro s _ _; simp [run_workers]
  | cons t rest ih =>
    intro s hlen hts
    have ht : t < W := hts t (List.mem_cons_self _ _)
    rw [run_workers, partial_sum, local_sum_eq sem N W s.arr t hW hlen ht]
    simp only []
    rw [ih { s with global_sum := int_add sem s.global_sum (sem.norm (chunk (N / W) s.arr t).sum)
                    reads := s.reads ++ List.range' (t * (N / W)) (N / W) }
      hlen (fun u hu => hts u (List.mem_cons_of_mem _ hu))]
    simp [List.flatMap_cons, List.append_assoc]

theorem sum_chunks (cs : Nat) (arr : List Int) :
    ∀ k : Nat, ((List.range k).map (fun t => (chunk cs arr t).sum)).sum = (arr.take (k * cs)).sum := by
  intro k
  induction k with
  | zero => simp
  | succ k ih =>
    rw [List.range_succ, List.map_append, List.sum_append, ih, Nat.succ_mul, List.take_add,
      List.sum_append]
    simp [chunk]

theorem reduce_state_eq (sem : IntSem) (N W : Nat) (arr : List Int) (order : List Nat)
    (hW : 1 ≤ W) (hlen : arr.length = N) (hts : ∀ t ∈ order, t < W) :
    reduce_state sem N W arr order =
      some { arr := arr
             global_sum := sem.norm ((order.map (fun t => (chunk (N / W) arr t).sum)).sum)
             reads := order.flatMap (fun t => List.range' (t * (N / W)) (N / W)) } := by
  rw [reduce_state, run_workers_eq sem N W hW order _ hlen hts,
    foldl_int_add sem _ 0 (norm_zero sem), Int.zero_add,
    norm_sum_map_norm sem (fun t => (chunk (N / W) arr t).sum)]
  simp

theorem reduce_sched_perm (sem : IntSem) (N W : Nat) (arr : List Int) (order : List Nat)
    (hW : 1 ≤ W) (hlen : arr.length = N) (hperm : order.Perm (thread_ids W)) :
    reduce_sched sem N W arr order = some (seq_sum sem (arr.take (W * (N / W)))) := by
  have hts : ∀ t ∈ order, t < W := fun t ht => List.mem_range.mp (hperm.mem_iff.mp ht)
  rw [reduce_sched, reduce_state_eq sem N W arr order hW hlen hts, seq_sum_eq,
    ← sum_chunks (N / W) arr W]
  simp only [Option.map_some']
  rw [(hperm.map _).sum_eq]
  rfl

end Pthreads


/-! ## Array initialisation -/

theorem init_loop_some (N : Nat) :
    ∀ (fuel i : Nat) (arr : List Int), arr.length = N → N - i ≤ fuel →
      ∃ arr', init_loop N fuel i arr = some arr' ∧ arr'.length = N := by
  intro fuel
  induction fuel with
  | zero =>
    intro i arr hlen h
    have hlt : ¬ i < N := by omega
    exact ⟨arr, by simp [init_loop, hlt], hlen⟩
  | succ fuel ih =>
    intro i arr hlen h
    by_cases hlt : i < N
    · have hi : i < arr.length := by omega
      rw [init_loop, if_pos hlt, if_pos hi]
      exact ih (i + 1) _ (by simp [hlen]) (by omega)
    · exact ⟨arr, by simp [init_loop, hlt], hlen⟩

theorem init_arr_some (N : Nat) : ∃ arr, init_arr N = some arr ∧ arr.length = N :=
  init_loop_some N N 0 _ (by simp) (by omega)

/-! ## The OpenMP parallel loop -/

theorem map_getElem?_getD_range (l : List Int) :
    (List.range l.length).map (fun i => (l[i]?).getD 0) = l := by
  apply List.ext_getElem
  · simp
  · intro n h1 h2
    simp [List.getElem?_eq_getElem h2]

theorem sum_map_flatten (f : Nat → Int) (ls : List (List Nat)) :
    (ls.map (fun l => (l.map f).sum)).sum = (ls.flatten.map f).sum := by
  induction ls with
  | nil => rfl
  | cons l ls ih =>
    rw [List.map_cons, List.sum_cons, ih, List.flatten_cons, List.map_append, List.sum_append]

theorem OpenMP.run_thread_eq (sem : IntSem) (arr : List Int) :
    ∀ (iterations : List Nat) (g : Int), (∀ i ∈ iterations, i < arr.length) → sem.norm g = g →
      OpenMP.run_thread sem arr iterations g =
        some (sem.norm (g + (iterations.map (fun i => (arr[i]?).getD 0)).sum)) := by
  intro iterations
  induction iterations with
  | nil => intro g _ hg; simp [OpenMP.run_thread, hg]
  | cons i rest ih =>
    intro g hin _
    have hi : i < arr.length := hin i (List.mem_cons_self _ _)
    rw [OpenMP.run_thread, OpenMP.loop_body, List.getElem?_eq_getElem hi]
    simp only []
    rw [ih (int_add sem g arr[i]) (fun j hj => hin j (List.mem_cons_of_mem _ hj))
        (norm_norm sem _), int_add,
      norm_add_left, List.map_cons, List.sum_cons, List.getElem?_eq_getElem hi,
      Option.getD_some, Int.add_assoc]

theorem OpenMP.run_team_eq (sem : IntSem) (arr : List Int) :
    ∀ sched : List (List Nat), (∀ l ∈ sched, ∀ i ∈ l, i < arr.length) →
      OpenMP.run_team sem arr sched =
        some (sched.map (fun l => sem.norm ((l.map (fun i => (arr[i]?).getD 0)).sum))) := by
  intro sched
  induction sched with
  | nil => intro _; rfl
  | cons l rest ih =>
    intro hin
    rw [OpenMP.run_team, OpenMP.run_thread_eq sem arr l 0 (hin l (List.mem_cons_self _ _))
      (norm_zero sem)]
    simp only []
    rw [ih (fun m hm => hin m (List.mem_cons_of_mem _ hm))]
    simp

theorem OpenMP.combine_eval_eq (sem : IntSem) (original : Int) (copies : List Int)
    (horig : sem.norm original = original) (hcopies : ∀ g ∈ copies, sem.norm g = g) :
    ∀ c : OpenMP.Combine, (∀ t, some t ∈ c.operands → t < copies.length) →
      c.eval sem original copies =
        some (sem.norm ((c.operands.map
          (fun o => match o with
            | none => original
            | some t => (copies[t]?).getD 0)).sum)) := by
  intro c
  induction c with
  | orig => intro _; simp [OpenMP.Combine.eval, OpenMP.Combine.operands, horig]
  | copy t =>
    intro h
    have ht : t < copies.length := h t (by simp [OpenMP.Combine.operands])
    have hg := hcopies copies[t] (List.getElem_mem _)
    simp [OpenMP.Combine.eval, OpenMP.Combine.operands, List.getElem?_eq_getElem ht, hg]
  | op l r ihl ihr =>
    intro h
    rw [OpenMP.Combine.eval,
      ihl (fun t ht => h t (by simp [OpenMP.Combine.operands, ht])),
      ihr (fun t ht => h t (by simp [OpenMP.Combine.operands, ht]))]
    simp only []
    rw [int_add, norm_add_left, norm_add_right, OpenMP.Combine.operands, List.map_append,
      List.sum_append]

theorem OpenMP.openmp_reduce_eq (sem : IntSem) (N : Nat) (arr : List Int)
    (sched : List (List Nat)) (c : OpenMP.Combine) (hlen : arr.length = N)
    (hsched : sched.flatten.Perm (List.range N))
    (hc : c.operands.Perm (none :: (List.range sched.length).map some)) :
    OpenMP.reduce sem arr sched c = some (seq_sum sem arr) := by
  have hin : ∀ l ∈ sched, ∀ i ∈ l, i < arr.length := by
    intro l hl i hi
    have : i ∈ sched.flatten := List.mem_flatten.mpr ⟨l, hl, hi⟩
    rw [hlen]
    exact List.mem_range.mp (hsched.mem_iff.mp this)
  have hcop : ∀ g ∈ sched.map (fun l => sem.norm ((l.map (fun i => (arr[i]?).getD 0)).sum)),
      sem.norm g = g := by
    intro g hg
    obtain ⟨l, _, rfl⟩ := List.mem_map.mp hg
    exact norm_norm sem _
  have hts : ∀ t, some t ∈ c.operands →
      t < (sched.map (fun l => sem.norm ((l.map (fun i => (arr[i]?).getD 0)).sum))).length := by
    intro t ht
    have := hc.mem_iff.mp ht
    simpa using this
  rw [OpenMP.reduce, OpenMP.run_team_eq sem arr sched hin]
  simp only []
  rw [OpenMP.combine_eval_eq sem 0 _ (norm_zero sem) hcop c hts, (hc.map _).sum_eq,
    List.map_cons, List.sum_cons, Int.zero_add, List.map_map]
  have hlen' : sched.length =
      (sched.map (fun l => sem.norm ((l.map (fun i => (arr[i]?).getD 0)).sum))).length := by
    simp
  rw [hlen']
  have hmap := map_getElem?_getD_range
    (sched.map (fun l => sem.norm ((l.map (fun i => (arr[i]?).getD 0)).sum)))
  simp only [Function.comp_def]
  have hnorm : sem.norm ((sched.map
        (fun l => sem.norm ((l.map (fun i => (arr[i]?).getD 0)).sum))).sum) =
      sem.norm ((sched.map (fun l => (l.map (fun i => (arr[i]?).getD 0)).sum)).sum) :=
    norm_sum_map_norm sem (fun l : List Nat => (l.map (fun i => (arr[i]?).getD 0)).sum) sched
  rw [hmap, hnorm, sum_map_flatten, (hsched.map _).sum_eq, ← hlen, map_getElem?_getD_range,
    seq_sum_eq]

/-! ## The TBB reduction -/

theorem slice_split (arr : List Int) (b mid e : Nat) (h1 : b ≤ mid) (h2 : mid ≤ e) :
    (arr.drop b).take (e - b) = (arr.drop b).take (mid - b) ++ (arr.drop mid).take (e - mid) := by
  have hk : e - b = (mid - b) + (e - mid) := by omega
  rw [hk, List.take_add, List.drop_drop]
  have hm : b + (mid - b) = mid := by omega
  rw [hm]

theorem TBB.body_eq (sem : IntSem) (arr : List Int) (b e : Nat) (acc : Int)
    (he : e ≤ arr.length) (hacc : sem.norm acc = acc) :
    TBB.body sem arr b e acc = some (sem.norm (acc + ((arr.drop b).take (e - b)).sum)) := by
  rw [TBB.body, sum_loop_eq sem arr e he _ _ _ _ (Nat.le_refl _), foldl_int_add sem _ acc hacc]
  rfl

theorem TBB.parallel_reduce_eq (sem : IntSem) (arr : List Int) :
    ∀ (p : TBB.Plan) (b e : Nat) (acc : Int), p.valid b e = true → e ≤ arr.length →
      sem.norm acc = acc →
      TBB.parallel_reduce sem arr 0 p b e acc =
        some (sem.norm (acc + ((arr.drop b).take (e - b)).sum)) := by
  intro p
  induction p with
  | leaf =>
    intro b e acc _ he hacc
    exact TBB.body_eq sem arr b e acc he hacc
  | cont mid l r ihl ihr =>
    intro b e acc hv he hacc
    simp only [TBB.Plan.valid, Bool.and_eq_true, decide_eq_true_eq] at hv
    obtain ⟨⟨⟨h1, h2⟩, hl⟩, hr⟩ := hv
    rw [TBB.parallel_reduce, if_pos ⟨h1, h2⟩, ihl b mid acc hl (by omega) hacc]
    simp only []
    rw [ihr mid e _ hr he (norm_norm sem _), norm_add_left, slice_split arr b mid e h1 h2,
      List.sum_append, Int.add_assoc]
  | fork mid l r ihl ihr =>
    intro b e acc hv he hacc
    simp only [TBB.Plan.valid, Bool.and_eq_true, decide_eq_true_eq] at hv
    obtain ⟨⟨⟨h1, h2⟩, hl⟩, hr⟩ := hv
    rw [TBB.parallel_reduce, if_pos ⟨h1, h2⟩, ihl b mid acc hl (by omega) hacc]
    simp only []
    rw [ihr mid e 0 hr he (norm_zero sem)]
    simp only []
    rw [TBB.join, int_add, Int.zero_add, norm_add_left, norm_add_right,
      slice_split arr b mid e h1 h2, List.sum_append, Int.add_assoc]

theorem TBB.tbb_reduce_eq (sem : IntSem) (N : Nat) (arr : List Int) (p : TBB.Plan)
    (hlen : arr.length = N) (hv : p.valid 0 N = true) :
    TBB.reduce sem N arr p = some (seq_sum sem arr) := by
  rw [TBB.reduce, TBB.parallel_reduce_eq sem arr p 0 N 0 hv (by omega) (norm_zero sem),
    seq_sum_eq]
  simp [← hlen]


/-! ## Index ranges of the workers -/

theorem Pthreads.mem_reads (cs : Nat) (order : List Nat) (i : Nat) :
    i ∈ order.flatMap (fun t => List.range' (t * cs) cs) ↔
      ∃ t ∈ order, t * cs ≤ i ∧ i < t * cs + cs := by
  simp [List.mem_flatMap, List.mem_range'_1]

theorem Pthreads.covered_iff (W cs i : Nat) :
    (∃ t, t < W ∧ t * cs ≤ i ∧ i < t * cs + cs) ↔ i < W * cs := by
  constructor
  · rintro ⟨t, ht, _, h2⟩
    calc i < t * cs + cs := h2
      _ = (t + 1) * cs := by ring
      _ ≤ W * cs := Nat.mul_le_mul_right _ ht
  · intro h
    have hcs : 0 < cs := by
      rcases Nat.eq_zero_or_pos cs with h0 | h0
      · subst h0; simp at h
      · exact h0
    refine ⟨i / cs, ?_, Nat.div_mul_le_self i cs, ?_⟩
    · exact Nat.div_lt_of_lt_mul (by rwa [Nat.mul_comm] at h)
    · have := Nat.div_add_mod i cs
      have hm := Nat.mod_lt i hcs
      rw [Nat.mul_comm] at this
      omega

theorem Pthreads.ranges_disjoint (N W t u : Nat) (h : t ≠ u) :
    Pthreads.end_ N W t ≤ Pthreads.start N W u ∨ Pthreads.end_ N W u ≤ Pthreads.start N W t := by
  unfold Pthreads.end_ Pthreads.start
  rcases Nat.lt_or_gt_of_ne h with hlt | hlt
  · left
    calc t * Pthreads.chunk_size N W + Pthreads.chunk_size N W
        = (t + 1) * Pthreads.chunk_size N W := by ring
      _ ≤ u * Pthreads.chunk_size N W := Nat.mul_le_mul_right _ hlt
  · right
    calc u * Pthreads.chunk_size N W + Pthreads.chunk_size N W
        = (u + 1) * Pthreads.chunk_size N W := by ring
      _ ≤ t * Pthreads.chunk_size N W := Nat.mul_le_mul_right _ hlt

theorem Pthreads.sizes_sum (N K : Nat) :
    ((Pthreads.thread_ids K).map
      (fun t => Pthreads.end_ N K t - Pthreads.start N K t)).sum = K * (N / K) := by
  simp [Pthreads.thread_ids, Pthreads.end_, Pthreads.start, Pthreads.chunk_size]

theorem Pthreads.mul_div_eq_iff (N W : Nat) : W * (N / W) = N ↔ W ∣ N :=
  ⟨fun h => ⟨N / W, h.symm⟩, fun h => Nat.mul_div_cancel' h⟩


/-! ## The claims -/

theorem init_arr_16 : init_arr 16 = some arr16 := by decide

theorem seq_sum_arr16 (sem : IntSem) : seq_sum sem arr16 = 136 := by
  cases sem <;> decide

/-- C1: with `arr[i] = i + 1` for `i` in `0..15` and `NUM_THREADS = 4`, the pthreads program's
`global_sum`, after the four `partial_sum` workers (thread ids 0, 1, 2, 3, merging in any
order) have each added their `local_sum` to it starting from 0, is exactly 136. -/
theorem C1_pthreads_global_sum_136 (sem : IntSem) (order : List Nat)
    (horder : order.Perm (Pthreads.thread_ids 4)) :
    init_arr 16 = some arr16 ∧ Pthreads.main_sched sem 16 4 order = some 136 := by
  refine ⟨init_arr_16, ?_⟩
  rw [Pthreads.main_sched, init_arr_16]
  simp only []
  rw [Pthreads.reduce_sched_perm sem 16 4 arr16 order (by decide) rfl horder]
  simp only [Nat.reduceDiv, Nat.reduceMul]
  rw [List.take_of_length_le (by decide), seq_sum_arr16]

theorem C1_pthreads_global_sum_136_witness :
    [2, 0, 3, 1].Perm (Pthreads.thread_ids 4) ∧
      (init_arr 16 = some arr16 ∧
        Pthreads.main_sched IntSem.wrap32 16 4 [2, 0, 3, 1] = some 136) :=
  ⟨by decide, C1_pthreads_global_sum_136 IntSem.wrap32 [2, 0, 3, 1] (by decide)⟩

/-- C2 as stated is false: with `N = 16`, `W = 3` and the array `1..16` the pthreads scheme
yields 120, while the sequential sum is 136. -/
theorem C2_counterexample :
    1 ≤ 3 ∧ arr16.length = 16 ∧ Pthreads.reduce IntSem.exact 16 3 arr16 = some 120 ∧
      seq_sum IntSem.exact arr16 = 136 ∧
      ¬ (Pthreads.reduce IntSem.exact 16 3 arr16 = some (seq_sum IntSem.exact arr16)) := by
  decide

/-- C2 (amended): for every length `N`, every integer sequence `arr` of length `N` and every
worker count `W >= 1` that divides `N`, the pthreads reduction (worker `t` sums `arr[i]` for
`i` in `[t*(N/W), t*(N/W) + N/W)`, and `global_sum` collects the `W` local sums starting from 0,
in any merge order) equals the sequential sum of all `N` elements of `arr`. -/
theorem C2_reduce_eq_seq_sum_of_dvd (sem : IntSem) (N W : Nat) (arr : List Int)
    (order : List Nat) (hW : 1 ≤ W) (hlen : arr.length = N) (hdvd : W ∣ N)
    (horder : order.Perm (Pthreads.thread_ids W)) :
    Pthreads.reduce_sched sem N W arr order = some (seq_sum sem arr) ∧
      seq_sum sem arr = sem.norm arr.sum := by
  refine ⟨?_, seq_sum_eq sem arr⟩
  rw [Pthreads.reduce_sched_perm sem N W arr order hW hlen horder, Nat.mul_div_cancel' hdvd,
    List.take_of_length_le (by omega)]

theorem C2_reduce_eq_seq_sum_of_dvd_witness :
    1 ≤ 2 ∧ [7, -3, 10, 2147483647].length = 4 ∧ 2 ∣ 4 ∧
      [1, 0].Perm (Pthreads.thread_ids 2) ∧
      (Pthreads.reduce_sched IntSem.wrap32 4 2 [7, -3, 10, 2147483647] [1, 0] =
          some (seq_sum IntSem.wrap32 [7, -3, 10, 2147483647]) ∧
        seq_sum IntSem.wrap32 [7, -3, 10, 2147483647] =
          IntSem.wrap32.norm ([7, -3, 10, 2147483647] : List Int).sum) :=
  ⟨by decide, by decide, by decide, by decide,
    C2_reduce_eq_seq_sum_of_dvd IntSem.wrap32 4 2 [7, -3, 10, 2147483647] [1, 0]
      (by decide) (by decide) (by decide) (by decide)⟩

/-- C3: for every 16-element integer array the three programs compute the same value, the
sequential left-to-right sum of the 16 elements: (1) the OpenMP loop under
`omp parallel for reduction(+:global_sum)`, for every distribution of the iterations `0..15`
over the threads of a team (each thread accumulating `arr[i]` into its private copy, which
starts at 0) and every order and grouping in which the original `global_sum = 0` and the
private copies are combined; (2) the pthreads sum of the four chunk-local sums over `[0,4)`,
`[4,8)`, `[8,12)`, `[12,16)` (in any merge order); (3) the TBB `parallel_reduce` for every way
of recursively splitting `blocked_range(0,16)`, the body adding the elements of its sub-range
onto the value it is handed and the join being `x + y`. -/
theorem C3_three_programs_agree (sem : IntSem) (arr : List Int) (sched : List (List Nat))
    (c : OpenMP.Combine) (order : List Nat) (p : TBB.Plan) (hlen : arr.length = 16)
    (hsched : sched.flatten.Perm (List.range 16))
    (hc : c.operands.Perm (none :: (List.range sched.length).map some))
    (horder : order.Perm (Pthreads.thread_ids 4)) (hp : p.valid 0 16 = true) :
    OpenMP.reduce sem arr sched c = some (seq_sum sem arr) ∧
      (Pthreads.thread_ids 4).map (fun t => (Pthreads.start 16 4 t, Pthreads.end_ 16 4 t)) =
        [(0, 4), (4, 8), (8, 12), (12, 16)] ∧
      Pthreads.reduce_sched sem 16 4 arr order = some (seq_sum sem arr) ∧
      TBB.reduce sem 16 arr p = some (seq_sum sem arr) := by
  refine ⟨OpenMP.openmp_reduce_eq sem 16 arr sched c hlen hsched hc, by decide, ?_,
    TBB.tbb_reduce_eq sem 16 arr p hlen hp⟩
  rw [Pthreads.reduce_sched_perm sem 16 4 arr order (by decide) hlen horder,
    List.take_of_length_le (by simp [hlen])]

theorem C3_three_programs_agree_witness :
    arr16.length = 16 ∧
      ([[0, 1, 8, 9], [2, 3, 10, 11], [], [6, 7, 14, 15, 4, 5, 12, 13]] :
        List (List Nat)).flatten.Perm (List.range 16) ∧
      (OpenMP.Combine.op (OpenMP.Combine.op (OpenMP.Combine.copy 2) OpenMP.Combine.orig)
        (OpenMP.Combine.op (OpenMP.Combine.copy 0)
          (OpenMP.Combine.op (OpenMP.Combine.copy 3) (OpenMP.Combine.copy 1)))).operands.Perm
        (none :: (List.range ([[0, 1, 8, 9], [2, 3, 10, 11], [],
          [6, 7, 14, 15, 4, 5, 12, 13]] : List (List Nat)).length).map some) ∧
      [3, 1, 0, 2].Perm (Pthreads.thread_ids 4) ∧
      (TBB.Plan.fork 8 (TBB.Plan.cont 4 TBB.Plan.leaf TBB.Plan.leaf)
        (TBB.Plan.fork 12 TBB.Plan.leaf TBB.Plan.leaf)).valid 0 16 = true ∧
      (OpenMP.reduce IntSem.wrap32 arr16
          [[0, 1, 8, 9], [2, 3, 10, 11], [], [6, 7, 14, 15, 4, 5, 12, 13]]
          (OpenMP.Combine.op (OpenMP.Combine.op (OpenMP.Combine.copy 2) OpenMP.Combine.orig)
            (OpenMP.Combine.op (OpenMP.Combine.copy 0)
              (OpenMP.Combine.op (OpenMP.Combine.copy 3) (OpenMP.Combine.copy 1)))) =
          some (seq_sum IntSem.wrap32 arr16) ∧
        (Pthreads.thread_ids 4).map (fun t => (Pthreads.start 16 4 t, Pthreads.end_ 16 4 t)) =
          [(0, 4), (4, 8), (8, 12), (12, 16)] ∧
        Pthreads.reduce_sched IntSem.wrap32 16 4 arr16 [3, 1, 0, 2] =
          some (seq_sum IntSem.wrap32 arr16) ∧
        TBB.reduce IntSem.wrap32 16 arr16
          (TBB.Plan.fork 8 (TBB.Plan.cont 4 TBB.Plan.leaf TBB.Plan.leaf)
            (TBB.Plan.fork 12 TBB.Plan.leaf TBB.Plan.leaf)) =
          some (seq_sum IntSem.wrap32 arr16)) :=
  ⟨by decide, by decide, by decide, by decide, by decide,
    C3_three_programs_agree IntSem.wrap32 arr16
      [[0, 1, 8, 9], [2, 3, 10, 11], [], [6, 7, 14, 15, 4, 5, 12, 13]]
      (OpenMP.Combine.op (OpenMP.Combine.op (OpenMP.Combine.copy 2) OpenMP.Combine.orig)
        (OpenMP.Combine.op (OpenMP.Combine.copy 0)
          (OpenMP.Combine.op (OpenMP.Combine.copy 3) (OpenMP.Combine.copy 1))))
      [3, 1, 0, 2]
      (TBB.Plan.fork 8 (TBB.Plan.cont 4 TBB.Plan.leaf TBB.Plan.leaf)
        (TBB.Plan.fork 12 TBB.Plan.leaf TBB.Plan.leaf))
      (by decide) (by decide) (by decide) (by decide) (by decide)⟩

/-- C4: for every 16-element integer array the pthreads chunked reduction gives the same result
with worker counts 1, 4 and 16, namely the sequential sum; for the array `1..16` the
single-worker program prints 136, as does the loop run in index order by a single thread. -/
theorem C4_worker_count_invariant (sem : IntSem) (arr : List Int) (hlen : arr.length = 16) :
    Pthreads.reduce sem 16 1 arr = some (seq_sum sem arr) ∧
      Pthreads.reduce sem 16 1 arr = Pthreads.reduce sem 16 4 arr ∧
      Pthreads.reduce sem 16 4 arr = Pthreads.reduce sem 16 16 arr ∧
      Pthreads.main sem 16 1 = some 136 ∧ OpenMP.main_one_thread sem 16 = some 136 := by
  have h : ∀ (a : List Int) (W : Nat), a.length = 16 → 1 ≤ W → W ∣ 16 →
      Pthreads.reduce sem 16 W a = some (seq_sum sem a) := by
    intro a W ha hW hdvd
    rw [Pthreads.reduce, Pthreads.reduce_sched_perm sem 16 W a _ hW ha (List.Perm.refl _),
      Nat.mul_div_cancel' hdvd, List.take_of_length_le (by omega)]
  have hm : Pthreads.main sem 16 1 = some 136 := by
    rw [Pthreads.main, Pthreads.main_sched, init_arr_16]
    simp only []
    rw [← Pthreads.reduce, h arr16 1 rfl (by decide) (by decide), seq_sum_arr16]
  have ho : OpenMP.main_one_thread sem 16 = some 136 := by
    rw [OpenMP.main_one_thread, OpenMP.main, init_arr_16]
    simp only []
    rw [OpenMP.openmp_reduce_eq sem 16 arr16 _ _ rfl (by decide) (by decide), seq_sum_arr16]
  refine ⟨h arr 1 hlen (by decide) (by decide), ?_, ?_, hm, ho⟩
  · rw [h arr 1 hlen (by decide) (by decide), h arr 4 hlen (by decide) (by decide)]
  · rw [h arr 4 hlen (by decide) (by decide), h arr 16 hlen (by decide) (by decide)]

theorem C4_worker_count_invariant_witness :
    arr16.length = 16 ∧
      (Pthreads.reduce IntSem.exact 16 1 arr16 = some (seq_sum IntSem.exact arr16) ∧
        Pthreads.reduce IntSem.exact 16 1 arr16 = Pthreads.reduce IntSem.exact 16 4 arr16 ∧
        Pthreads.reduce IntSem.exact 16 4 arr16 = Pthreads.reduce IntSem.exact 16 16 arr16 ∧
        Pthreads.main IntSem.exact 16 1 = some 136 ∧
        OpenMP.main_one_thread IntSem.exact 16 = some 136) :=
  ⟨by decide, C4_worker_count_invariant IntSem.exact arr16 (by decide)⟩

/-- C5: for every 16-element integer array and every two orders (permutations of the thread
ids 0..3) in which the four workers perform `global_sum += local_sum`, a final `global_sum` is
produced and it is the same value, for exact integer addition and for addition modulo 2^32. -/
theorem C5_merge_order_independent (sem : IntSem) (arr : List Int) (order order' : List Nat)
    (hlen : arr.length = 16) (horder : order.Perm (Pthreads.thread_ids 4))
    (horder' : order'.Perm (Pthreads.thread_ids 4)) :
    (∃ g, Pthreads.reduce_sched sem 16 4 arr order = some g) ∧
      Pthreads.reduce_sched sem 16 4 arr order = Pthreads.reduce_sched sem 16 4 arr order' := by
  rw [Pthreads.reduce_sched_perm sem 16 4 arr order (by decide) hlen horder,
    Pthreads.reduce_sched_perm sem 16 4 arr order' (by decide) hlen horder']
  exact ⟨⟨_, rfl⟩, rfl⟩

theorem C5_merge_order_independent_witness :
    arr16.length = 16 ∧ [3, 2, 1, 0].Perm (Pthreads.thread_ids 4) ∧
      [1, 3, 0, 2].Perm (Pthreads.thread_ids 4) ∧
      ((∃ g, Pthreads.reduce_sched IntSem.wrap32 16 4 arr16 [3, 2, 1, 0] = some g) ∧
        Pthreads.reduce_sched IntSem.wrap32 16 4 arr16 [3, 2, 1, 0] =
          Pthreads.reduce_sched IntSem.wrap32 16 4 arr16 [1, 3, 0, 2]) :=
  ⟨by decide, by decide, by decide,
    C5_merge_order_independent IntSem.wrap32 arr16 [3, 2, 1, 0] [1, 3, 0, 2]
      (by decide) (by decide) (by decide)⟩


/-- C6 as stated is false: for `N = 16` and `W = 3` the chunks are `[0,5)`, `[5,10)`,
`[10,15)`; their sizes sum to 15, not 16, and index 15 lies in no chunk. -/
theorem C6_counterexample :
    1 ≤ 3 ∧
      (Pthreads.thread_ids 3).map (fun t => (Pthreads.start 16 3 t, Pthreads.end_ 16 3 t)) =
        [(0, 5), (5, 10), (10, 15)] ∧
      ((Pthreads.thread_ids 3).map
        (fun t => Pthreads.end_ 16 3 t - Pthreads.start 16 3 t)).sum = 15 ∧
      ¬ (((Pthreads.thread_ids 3).map
        (fun t => Pthreads.end_ 16 3 t - Pthreads.start 16 3 t)).sum = 16) ∧
      (15 < 16 ∧ ∀ t ∈ Pthreads.thread_ids 3,
        ¬ (Pthreads.start 16 3 t ≤ 15 ∧ 15 < Pthreads.end_ 16 3 t)) := by
  decide

/-- C6 (amended): for every array length `N` and every worker count `K >= 1` that divides `N`,
the sub-ranges `[t*(N/K), t*(N/K) + N/K)` of the workers `t` in `0..K-1` form an exhaustive
partition of `[0, N)`: an index is below `N` exactly when some worker's range contains it, the
ranges of distinct workers do not overlap, and the chunk sizes sum to exactly `N`. -/
theorem C6_partition_of_dvd (N K : Nat) (_hK : 1 ≤ K) (hdvd : K ∣ N) :
    (∀ i, i < N ↔ ∃ t, t < K ∧ Pthreads.start N K t ≤ i ∧ i < Pthreads.end_ N K t) ∧
      (∀ t u, t ≠ u →
        Pthreads.end_ N K t ≤ Pthreads.start N K u ∨
          Pthreads.end_ N K u ≤ Pthreads.start N K t) ∧
      ((Pthreads.thread_ids K).map
        (fun t => Pthreads.end_ N K t - Pthreads.start N K t)).sum = N := by
  have hN : K * (N / K) = N := Nat.mul_div_cancel' hdvd
  refine ⟨?_, fun t u h => Pthreads.ranges_disjoint N K t u h, ?_⟩
  · intro i
    have := Pthreads.covered_iff K (N / K) i
    rw [hN] at this
    exact this.symm
  · rw [Pthreads.sizes_sum, hN]

theorem C6_partition_of_dvd_witness :
    1 ≤ 4 ∧ 4 ∣ 16 ∧
      ((∀ i, i < 16 ↔ ∃ t, t < 4 ∧ Pthreads.start 16 4 t ≤ i ∧ i < Pthreads.end_ 16 4 t) ∧
        (∀ t u, t ≠ u →
          Pthreads.end_ 16 4 t ≤ Pthreads.start 16 4 u ∨
            Pthreads.end_ 16 4 u ≤ Pthreads.start 16 4 t) ∧
        ((Pthreads.thread_ids 4).map
          (fun t => Pthreads.end_ 16 4 t - Pthreads.start 16 4 t)).sum = 16) :=
  ⟨by decide, by decide, C6_partition_of_dvd 16 4 (by decide) (by decide)⟩

/-- C7: for every worker count `W >= 1`, reducing the empty sequence (`N = 0`) yields 0: in the
pthreads scheme `chunk_size = 0 / W = 0`, every worker's loop reads nothing and leaves
`local_sum = 0`, and `global_sum` stays 0; in the TBB scheme the reduce over the empty range
returns the identity 0. -/
theorem C7_empty_sequence (sem : IntSem) (W : Nat) (order : List Nat) (p : TBB.Plan)
    (hW : 1 ≤ W) (horder : order.Perm (Pthreads.thread_ids W)) (hp : p.valid 0 0 = true) :
    Pthreads.chunk_size 0 W = 0 ∧
      (∀ t, Pthreads.local_sum sem 0 W [] t = some (0, [])) ∧
      Pthreads.reduce_sched sem 0 W [] order = some 0 ∧
      TBB.reduce sem 0 [] p = some 0 := by
  have hW0 : W ≠ 0 := by omega
  refine ⟨by simp [Pthreads.chunk_size], ?_, ?_, ?_⟩
  · intro t
    simp [Pthreads.local_sum, Pthreads.end_, Pthreads.start, Pthreads.chunk_size, hW0, sum_loop]
  · rw [Pthreads.reduce_sched_perm sem 0 W [] order hW rfl horder]
    simp [seq_sum]
  · rw [TBB.tbb_reduce_eq sem 0 [] p rfl hp]
    simp [seq_sum]

theorem C7_empty_sequence_witness :
    1 ≤ 3 ∧ [2, 0, 1].Perm (Pthreads.thread_ids 3) ∧
      (TBB.Plan.fork 0 TBB.Plan.leaf TBB.Plan.leaf).valid 0 0 = true ∧
      (Pthreads.chunk_size 0 3 = 0 ∧
        (∀ t, Pthreads.local_sum IntSem.wrap32 0 3 [] t = some (0, [])) ∧
        Pthreads.reduce_sched IntSem.wrap32 0 3 [] [2, 0, 1] = some 0 ∧
        TBB.reduce IntSem.wrap32 0 [] (TBB.Plan.fork 0 TBB.Plan.leaf TBB.Plan.leaf) = some 0) :=
  ⟨by decide, by decide, by decide,
    C7_empty_sequence IntSem.wrap32 3 [2, 0, 1] (TBB.Plan.fork 0 TBB.Plan.leaf TBB.Plan.leaf)
      (by decide) (by decide) (by decide)⟩

/-- C8 as stated is false: run with `NUM_THREADS = 0` (and the shipped `N = 16`) the pthreads
program does not end in an error; it returns the sum 0. -/
theorem C8_counterexample :
    ¬ (Pthreads.main IntSem.exact 16 0 = none) ∧ Pthreads.main IntSem.exact 16 0 = some 0 := by
  decide

/-- C8 (amended): with `NUM_THREADS = 0` the pthreads scheme signals no error: `main` creates
no worker (the schedule is empty, so `partial_sum` and its division `N / NUM_THREADS` are never
executed), no array element is read, and `global_sum` keeps its initial value 0, which is the
result. -/
theorem C8_zero_threads_returns_zero (sem : IntSem) (N : Nat) :
    Pthreads.thread_ids 0 = [] ∧
      (∀ arr : List Int, Pthreads.reduce_state sem N 0 arr (Pthreads.thread_ids 0) =
        some { arr := arr, global_sum := 0, reads := [] }) ∧
      (∀ arr : List Int, Pthreads.reduce sem N 0 arr = some 0) ∧
      Pthreads.main sem N 0 = some 0 := by
  refine ⟨rfl, fun _ => rfl, fun _ => rfl, ?_⟩
  obtain ⟨arr, harr, _⟩ := init_arr_some N
  rw [Pthreads.main, Pthreads.main_sched, harr]
  rfl

/-- C9: for every `N`, every integer sequence `arr` of length `N` and every `W >= 1`, the
pthreads chunking with `chunk_size = N / W` makes the result (under any merge order) equal to
the sum of exactly the first `W*(N/W)` elements of `arr`: the indices read by the workers are
exactly those below `W*(N/W)`, so the trailing `N mod W` elements are read by no worker, and
every element is read if and only if `W` divides `N`. -/
theorem C9_sums_first_chunks_only (sem : IntSem) (N W : Nat) (arr : List Int)
    (order : List Nat) (hW : 1 ≤ W) (hlen : arr.length = N)
    (horder : order.Perm (Pthreads.thread_ids W)) :
    ∃ s, Pthreads.reduce_state sem N W arr order = some s ∧
      s.global_sum = seq_sum sem (arr.take (W * (N / W))) ∧
      (∀ i, i ∈ s.reads ↔ i < W * (N / W)) ∧
      N - W * (N / W) = N % W ∧
      ((∀ i, i < N → i ∈ s.reads) ↔ W ∣ N) := by
  have hts : ∀ t, t ∈ order ↔ t < W := fun t =>
    ⟨fun ht => List.mem_range.mp (horder.mem_iff.mp ht),
      fun ht => horder.mem_iff.mpr (List.mem_range.mpr ht)⟩
  have hreads : ∀ i, i ∈ order.flatMap (fun t => List.range' (t * (N / W)) (N / W)) ↔
      i < W * (N / W) := by
    intro i
    rw [Pthreads.mem_reads, ← Pthreads.covered_iff]
    exact ⟨fun ⟨t, ht, h⟩ => ⟨t, (hts t).mp ht, h⟩, fun ⟨t, ht, h⟩ => ⟨t, (hts t).mpr ht, h⟩⟩
  have hle : W * (N / W) ≤ N := Nat.mul_div_le N W
  have hsum := Pthreads.reduce_sched_perm sem N W arr order hW hlen horder
  rw [Pthreads.reduce_sched,
    Pthreads.reduce_state_eq sem N W arr order hW hlen (fun t ht => (hts t).mp ht)] at hsum
  refine ⟨_, Pthreads.reduce_state_eq sem N W arr order hW hlen (fun t ht => (hts t).mp ht),
    ?_, hreads, ?_, ?_⟩
  · simpa using hsum
  · have := Nat.div_add_mod N W
    omega
  · rw [← Pthreads.mul_div_eq_iff]
    constructor
    · intro h
      rcases Nat.lt_or_ge (W * (N / W)) N with hlt | hge
      · exact absurd ((hreads _).mp (h _ hlt)) (Nat.lt_irrefl _)
      · omega
    · intro h i hi
      exact (hreads i).mpr (by omega)

theorem C9_sums_first_chunks_only_witness :
    1 ≤ 3 ∧ arr16.length = 16 ∧ [1, 2, 0].Perm (Pthreads.thread_ids 3) ∧
      (∃ s, Pthreads.reduce_state IntSem.exact 16 3 arr16 [1, 2, 0] = some s ∧
        s.global_sum = seq_sum IntSem.exact (arr16.take (3 * (16 / 3))) ∧
        (∀ i, i ∈ s.reads ↔ i < 3 * (16 / 3)) ∧
        16 - 3 * (16 / 3) = 16 % 3 ∧
        ((∀ i, i < 16 → i ∈ s.reads) ↔ 3 ∣ 16)) :=
  ⟨by decide, by decide, by decide,
    C9_sums_first_chunks_only IntSem.exact 16 3 arr16 [1, 2, 0]
      (by decide) (by decide) (by decide)⟩

/-- C10: for every `N`, every `W >= 1` and every thread id `t < W`, the index range
`[start, end)` computed by `partial_sum` satisfies `0 <= start <= end <= N`; on an array of
length `N` the worker's loop produces a result and reads exactly the indices `start .. end-1`,
all of them inside the array; and the ranges of two distinct thread ids are disjoint.  In
particular this holds for the shipped `N = 16`, `NUM_THREADS = 4`. -/
theorem C10_ranges_within_bounds_disjoint (sem : IntSem) (N W t : Nat) (arr : List Int)
    (hW : 1 ≤ W) (hlen : arr.length = N) (ht : t < W) :
    0 ≤ Pthreads.start N W t ∧ Pthreads.start N W t ≤ Pthreads.end_ N W t ∧
      Pthreads.end_ N W t ≤ N ∧
      (∃ l reads, Pthreads.local_sum sem N W arr t = some (l, reads) ∧
        reads = List.range' (Pthreads.start N W t) (Pthreads.end_ N W t - Pthreads.start N W t) ∧
        ∀ i ∈ reads, Pthreads.start N W t ≤ i ∧ i < Pthreads.end_ N W t ∧ i < arr.length) ∧
      (∀ u, u < W → t ≠ u →
        Pthreads.end_ N W t ≤ Pthreads.start N W u ∨
          Pthreads.end_ N W u ≤ Pthreads.start N W t) := by
  have hend := Pthreads.end_le N W t ht
  refine ⟨Nat.zero_le _, Nat.le_add_right _ _, hend, ?_,
    fun u _ h => Pthreads.ranges_disjoint N W t u h⟩
  refine ⟨_, _, Pthreads.local_sum_eq sem N W arr t hW hlen ht, ?_, ?_⟩
  · simp [Pthreads.end_, Pthreads.start, Pthreads.chunk_size]
  · intro i hi
    rw [List.mem_range'_1] at hi
    simp only [Pthreads.end_, Pthreads.start, Pthreads.chunk_size] at hend ⊢
    omega

theorem C10_ranges_within_bounds_disjoint_witness :
    1 ≤ 4 ∧ arr16.length = 16 ∧ 3 < 4 ∧
      (0 ≤ Pthreads.start 16 4 3 ∧ Pthreads.start 16 4 3 ≤ Pthreads.end_ 16 4 3 ∧
        Pthreads.end_ 16 4 3 ≤ 16 ∧
        (∃ l reads, Pthreads.local_sum IntSem.wrap32 16 4 arr16 3 = some (l, reads) ∧
          reads = List.range' (Pthreads.start 16 4 3)
            (Pthreads.end_ 16 4 3 - Pthreads.start 16 4 3) ∧
          ∀ i ∈ reads, Pthreads.start 16 4 3 ≤ i ∧ i < Pthreads.end_ 16 4 3 ∧
            i < arr16.length) ∧
        (∀ u, u < 4 → 3 ≠ u →
          Pthreads.end_ 16 4 3 ≤ Pthreads.start 16 4 u ∨
            Pthreads.end_ 16 4 u ≤ Pthreads.start 16 4 3)) :=
  ⟨by decide, by decide, by decide,
    C10_ranges_within_bounds_disjoint IntSem.wrap32 16 4 3 arr16
      (by decide) (by decide) (by decide)⟩

end ParallelSum
